import Mathlib

/-!
Verification development for the `fileutils` library (Python).

We give a shallow embedding of the parts of the code that the checked
properties are about:

* a model of POSIX absolute-path handling as used by `fileutils.local.File`
  (`os.path.join` + `os.path.abspath` normalisation, `dirname`-based parents),
* the generic hierarchy operations of `fileutils.interface.BaseFile`
  (`child`, `parent`, `get_ancestors`, `descendant_of`, `ancestor_of`,
  `same_as`, `safe_child`),
* a single-filesystem state model over which `fileutils.local.File`'s
  stateful operations (`type`, `delete`, `create_folder`, `link_to`,
  `open_for_writing`/`write`, `read`, `size`) and `BaseFile`'s generic
  algorithms (`dereference`, `copy_to`, `copy_into`) are interpreted,
* `BaseFile.read_blocks` over a finite underlying stream,
* `BaseFile.recurse` over finitely branching trees,
* the attribute-transfer logic of `BaseFile.copy_attributes_to` and
  `ExtendedAttributes.copy_to`.

Machine-level integers do not occur in the modelled code; file contents are
byte lists.  Operations that can raise in Python return `Except`/`Option`
here, and potentially diverging recursions (recursive `dereference`,
recursive copy/delete) are fuelled, with fuel exhaustion distinguished from
every genuine outcome.
-/

namespace Fileutils

/-!  ## Path model

`fileutils.local.File` stores an absolute path produced by
`os.path.abspath(os.path.join(*components))`.  We represent an absolute
POSIX path by its list of components after normalisation (the root `/` is
`[]`).  `normFold` is one step of `posixpath.normpath` on an absolute path:
empty segments and `.` are dropped, `..` removes the last component (at the
root it stays at the root), everything else is appended.  -/

def goodName (c : String) : Bool :=
  c ≠ "" && c ≠ "." && c ≠ ".."

def normFold (acc : List String) (seg : String) : List String :=
  if seg = "" ∨ seg = "." then acc
  else if seg = ".." then acc.dropLast
  else acc ++ [seg]

def normalize (segs : List String) : List String :=
  segs.foldl normFold []

/-- Split on `'/'` (the behaviour of `str.split('/')`, equivalently
`String.splitOn · "/"`, written out over the character list). -/
def splitSlashAux : List Char → List Char → List String
  | [], acc => [String.mk acc.reverse]
  | c :: rest, acc =>
      if c = '/' then String.mk acc.reverse :: splitSlashAux rest []
      else splitSlashAux rest (c :: acc)

def splitName (s : String) : List String :=
  splitSlashAux s.data []

/-- Whether a name is an absolute path (begins with `/`). -/
def isAbsName (s : String) : Bool :=
  match s.data with
  | [] => false
  | c :: _ => c = '/'

/-- `os.path.join(base, *names)` at the segment level: a name that is
absolute (begins with `/`) discards everything before it, as in
`os.path.join`; otherwise its slash-separated segments are appended. -/
def joinSegs (base : List String) : List String → List String
  | [] => base
  | n :: rest =>
      if isAbsName n then joinSegs (splitName n) rest
      else joinSegs (base ++ splitName n) rest

/-- A `fileutils.local.File`: an absolute path, as normalised components. -/
structure File where
  comps : List String
  deriving DecidableEq

/-- `File.child(*names)` = `File(os.path.join(self.path, *names))`
(`local.py`, `File.child`): textual join followed by `abspath`
normalisation. -/
def childF (f : File) (names : List String) : File :=
  ⟨normalize (joinSegs f.comps names)⟩

/-- `File.parent` (`local.py`): `os.path.dirname`; `None` when the dirname
is the path itself (the root). -/
def parentF (f : File) : Option File :=
  match f.comps with
  | [] => none
  | _ => some ⟨f.comps.dropLast⟩

/-- `File.get_path_components()` = `self._path.split(os.path.sep)`: the
root `"/"` splits into `["", ""]`, the path `/a/b` into `["", "a", "b"]`. -/
def pathComponents (f : File) : List String :=
  match f.comps with
  | [] => ["", ""]
  | cs => "" :: cs

/-- `BaseFile.name` = `self.path_components[-1]`. -/
def nameF (f : File) : String :=
  (pathComponents f).getLastD ""

/-- `BaseFile.same_as` for local files: same concrete type (always `File`
here) and equal `path_components`. -/
def sameAsB (a b : File) : Bool :=
  pathComponents a = pathComponents b

/-- The `while current is not None` loop of `BaseFile.get_ancestors`,
started at `f`: collects `f`, `f.parent`, `f.parent.parent`, ... -/
def chainFrom (f : File) : List File :=
  f :: (match h : parentF f with
        | none => []
        | some p => chainFrom p)
termination_by f.comps.length
decreasing_by
  simp only [parentF] at h
  cases hc : f.comps with
  | nil => rw [hc] at h; exact absurd h (by simp)
  | cons x xs =>
      rw [hc] at h
      simp only [Option.some.injEq] at h
      subst h
      simp [hc, List.length_dropLast]

/-- `BaseFile.get_ancestors(including_self)`. -/
def getAncestors (f : File) (includingSelf : Bool) : List File :=
  if includingSelf then chainFrom f
  else match parentF f with
       | none => []
       | some p => chainFrom p

/-- `BaseFile.descendant_of(other, including_self)`: some ancestor of
`self` is `same_as` `other`. -/
def descendantOfB (self other : File) (includingSelf : Bool) : Bool :=
  (getAncestors self includingSelf).any (fun a => sameAsB other a)

/-- `BaseFile.ancestor_of(other, including_self)`. -/
def ancestorOfB (self other : File) (includingSelf : Bool) : Bool :=
  descendantOfB other self includingSelf

/-- `BaseFile.safe_child(*names)`: compute `child(*names)` and raise
(`ValueError`, the escape error of the taxonomy) unless the result is a
strict descendant of `self` (`ancestor_of` with its default
`including_self=False`). -/
def safeChild (f : File) (names : List String) : Except Unit File :=
  let c := childF f names
  if ancestorOfB f c false then Except.ok c else Except.error ()

/-- Invariant of every path produced by `_resolve_path` (normalisation
leaves no empty, `.` or `..` components; real paths also have slash-free
components, which the claims below do not need). -/
def CleanFile (f : File) : Prop :=
  ∀ c ∈ f.comps, goodName c = true

instance (f : File) : Decidable (CleanFile f) := by
  unfold CleanFile; infer_instance

/-!  ## Filesystem state model

The state of the local filesystem is a finite association from absolute
paths (as normalised components) to entries.  This models the narrow native
surface `fileutils.local` consumes from the OS (`lstat`, `readlink`,
`listdir`, `mkdir`, `remove`, `rmdir`, `symlink`, `open`).  Simplifications
of the *OS*, not of the library code: paths are flat keys, so a symbolic
link is resolved only when it is the final component of a path (the claims
checked here do not hinge on links in intermediate components), and there
are no mount points (`File.mountpoint` is `None`, so `is_mount` is always
false and `delete`'s unmount loop never runs). -/

inductive FSNode where
  | file (content : List Nat)
  | folder
  | link (target : String)
  | dev
  deriving DecidableEq

abbrev FS := List (List String × FSNode)

/-- The `FILE` / `FOLDER` / `LINK` / `"fileutils.OTHER"` classification
constants of `fileutils.constants` (declared there; the module is not under
`src/` but the classification itself is in `local.py`, `File.type`). -/
inductive FType where
  | file
  | folder
  | link
  | dev
  deriving DecidableEq

def lookupFS (s : FS) (p : List String) : Option FSNode :=
  match s with
  | [] => none
  | (q, v) :: rest => if q = p then some v else lookupFS rest p

def eraseKey (s : FS) (p : List String) : FS :=
  s.filter (fun e => e.1 ≠ p)

def insertFS (s : FS) (p : List String) (v : FSNode) : FS :=
  (p, v) :: eraseKey s p

/-- `File.type` (`local.py`): classify by `os.lstat`, `None` when the path
does not exist. -/
def ftypeFS (s : FS) (f : File) : Option FType :=
  match lookupFS s f.comps with
  | some (.file _) => some .file
  | some .folder => some .folder
  | some (.link _) => some .link
  | some .dev => some .dev
  | none => none

/-- `BaseFile.exists`: `self.type is not None`. -/
def existsFS (s : FS) (f : File) : Bool :=
  (ftypeFS s f).isSome

/-- `BaseFile.is_link`: `self.type is LINK`. -/
def isLinkFS (s : FS) (f : File) : Bool :=
  ftypeFS s f = some .link

/-- `File.link_target` (`local.py`): `None` unless a link, else
`os.readlink`. -/
def linkTargetFS (s : FS) (f : File) : Option String :=
  match lookupFS s f.comps with
  | some (.link t) => some t
  | _ => none

/-- `BaseFile.dereference(recursive=True)`, fuelled: if not a link return
self, else resolve the link target *relative to the parent directory*
(`self.parent.child(self.link_target)`) and recurse.  `none` means the
recursion did not finish within the fuel (cyclic chains), or the root was a
link (where Python would fail on `None.child`). -/
def derefN (s : FS) : Nat → File → Option File
  | 0, _ => none
  | n + 1, f =>
      if isLinkFS s f then
        match linkTargetFS s f, parentF f with
        | some t, some p => derefN s n (childF p [t])
        | _, _ => none
      else some f

/-- `BaseFile.is_folder`: `self.dereference(True).type is FOLDER`; `none`
when the dereference does not terminate within the fuel. -/
def isFolderB (s : FS) (n : Nat) (f : File) : Option Bool :=
  (derefN s n f).map (fun g => decide (ftypeFS s g = some FType.folder))

/-- `BaseFile.is_file`: `self.dereference(True).type is FILE`. -/
def isFileB (s : FS) (n : Nat) (f : File) : Option Bool :=
  (derefN s n f).map (fun g => decide (ftypeFS s g = some FType.file))

/-- Ascending insertion sort on names: Python's `sorted` on the `listdir`
result. -/
def insertSorted (x : String) : List String → List String
  | [] => [x]
  | y :: ys => if x ≤ y then x :: y :: ys else y :: insertSorted x ys

def sortNames : List String → List String
  | [] => []
  | x :: xs => insertSorted x (sortNames xs)

/-- `os.listdir`: the names `n` with an entry at `f.comps ++ [n]`. -/
def listdirFS (s : FS) (f : File) : List String :=
  (s.filterMap (fun e =>
      match e.1.getLast? with
      | some n => if e.1.dropLast = f.comps then some n else none
      | none => none)).dedup

/-- `File.child_names` (`local.py`): `None` if not a folder, else the
sorted `os.listdir` result; then `ChildrenMixin.children` maps
`self.child` over it.  Outer `none` = the `is_folder` dereference ran out
of fuel. -/
def childrenOptN (s : FS) (n : Nat) (f : File) : Option (Option (List File)) :=
  match isFolderB s n f with
  | none => none
  | some false => some none
  | some true => some (some ((sortNames (listdirFS s f)).map (fun nm => childF f [nm])))

/-- Error kinds raised by the modelled operations, named after the
exception classes of `fileutils.exceptions` (`fuelOut` is not an error of
the code: it marks that a fuelled recursion was cut off). -/
inductive CErr where
  | notFound
  | alreadyExists
  | isADir
  | notADir
  | notImpl
  | fuelOut
  deriving DecidableEq

/-- Errors carry the filesystem state at the moment of the raise, so that
"nothing had been written yet" is expressible. -/
abbrev FSRes := Except (CErr × FS) FS

/-- `dirExistsFS s p`: the directory `p` exists (the root always does). -/
def dirExistsFS (s : FS) (p : List String) : Bool :=
  p = [] || lookupFS s p = some FSNode.folder

/-- `open(self.path, "rb")` followed by `f.read()`: resolve the final
symlink chain, then return the file's content. -/
def readFS (s : FS) (n : Nat) (f : File) : Except (CErr × FS) (List Nat) :=
  match derefN s n f with
  | none => .error (.fuelOut, s)
  | some r =>
      match lookupFS s r.comps with
      | some (.file c) => .ok c
      | some .folder => .error (.isADir, s)
      | none => .error (.notFound, s)
      | some _ => .error (.notImpl, s)

/-- `BaseFile.write(data)`: `open(self.path, "wb")` then write `data` —
resolve the final symlink chain, truncate/create the regular file there,
and replace its content with `data`.  Fails on directories and on a
missing parent directory, as `open` does. -/
def writeFS (s : FS) (n : Nat) (f : File) (data : List Nat) : FSRes :=
  match derefN s n f with
  | none => .error (.fuelOut, s)
  | some r =>
      match lookupFS s r.comps with
      | some .folder => .error (.isADir, s)
      | some (.link _) => .error (.notImpl, s)
      | some .dev => .error (.notImpl, s)
      | _ =>
          if r.comps = [] then .error (.isADir, s)
          else if dirExistsFS s r.comps.dropLast then
            .ok (insertFS s r.comps (.file data))
          else .error (.notFound, s)

/-- `os.path.getsize(self.path)` (follows symlinks). -/
def getsizeN (s : FS) (n : Nat) (f : File) : Option Nat :=
  match derefN s n f with
  | none => none
  | some r =>
      match lookupFS s r.comps with
      | some (.file c) => some c.length
      | _ => none

mutual
/-- `File.size` (`local.py`): folders sum their children's sizes
recursively, files report `os.path.getsize`, anything else is `0`. -/
def sizeN : Nat → FS → File → Option Nat
  | 0, _, _ => none
  | n + 1, s, f =>
      match isFolderB s n f with
      | none => none
      | some true =>
          match childrenOptN s n f with
          | some (some cs) => sumSizes n s cs
          | _ => none
      | some false =>
          match isFileB s n f with
          | none => none
          | some true => getsizeN s n f
          | some false => some 0
termination_by n _ _ => (n, 0)

def sumSizes : Nat → FS → List File → Option Nat
  | _, _, [] => some 0
  | n, s, c :: rest =>
      match sizeN n s c, sumSizes n s rest with
      | some a, some b => some (a + b)
      | _, _ => none
termination_by n _ cs => (n, cs.length + 1)
end

mutual
/-- `File.delete(ignore_missing)` (`local.py`) and the child loop inside
its folder branch.  The model has no mount points, so the leading
`while self.is_mount` loop is a no-op.  A folder that is not itself a link
has its children deleted first and is then removed with `os.rmdir`;
everything else (files, links, devices) is removed as a single entry with
`os.remove`. -/
def deleteFS : Nat → FS → File → Bool → FSRes
  | 0, s, _, _ => .error (.fuelOut, s)
  | n + 1, s, f, im =>
      if existsFS s f = false then
        if im then .ok s else .error (.notFound, s)
      else
        match isFolderB s n f with
        | none => .error (.fuelOut, s)
        | some fb =>
            if fb && !isLinkFS s f then
              match childrenOptN s n f with
              | none => .error (.fuelOut, s)
              | some none => .error (.notImpl, s)
              | some (some cs) =>
                  match deleteChildren n s cs with
                  | .ok s' => .ok (eraseKey s' f.comps)
                  | .error e => .error e
            else .ok (eraseKey s f.comps)
termination_by n _ _ _ => (n, 0)

def deleteChildren : Nat → FS → List File → FSRes
  | _, s, [] => .ok s
  | n, s, c :: rest =>
      match deleteFS n s c false with
      | .ok s' => deleteChildren n s' rest
      | .error e => .error e
termination_by n _ cs => (n, cs.length + 1)
end

/-- `os.mkdir`: fails when the entry exists, when the parent directory is
missing, or when the parent is not a directory. -/
def mkdirFS (s : FS) (f : File) : FSRes :=
  match lookupFS s f.comps with
  | some _ => .error (.alreadyExists, s)
  | none =>
      if f.comps = [] then .error (.alreadyExists, s)
      else if dirExistsFS s f.comps.dropLast then .ok (insertFS s f.comps .folder)
      else match lookupFS s f.comps.dropLast with
           | none => .error (.notFound, s)
           | some _ => .error (.notADir, s)

/-- `File.create_folder(ignore_existing, recursive)` (`local.py`). -/
def createFolder : Nat → FS → File → Bool → Bool → FSRes
  | 0, s, _, _, _ => .error (.fuelOut, s)
  | n + 1, s, f, ignoreExisting, recursive =>
      match isFolderB s n f with
      | none => .error (.fuelOut, s)
      | some true => if ignoreExisting then .ok s else .error (.alreadyExists, s)
      | some false =>
          match parentF f with
          | some p =>
              if recursive && !existsFS s p then
                match createFolder n s p false true with
                | .ok s' => mkdirFS s' f
                | .error e => .error e
              else mkdirFS s f
          | none => mkdirFS s f

/-- `os.symlink(target, path)`: creates the link verbatim; fails when the
path exists or its parent directory is missing. -/
def symlinkFS (s : FS) (f : File) (target : String) : FSRes :=
  match lookupFS s f.comps with
  | some _ => .error (.alreadyExists, s)
  | none =>
      if f.comps = [] then .error (.alreadyExists, s)
      else if dirExistsFS s f.comps.dropLast then
        .ok (insertFS s f.comps (.link target))
      else .error (.notFound, s)

mutual
/-- `BaseFile.copy_to(other, overwrite, dereference_links, ...)`
(`interface.py`): the existing-target check (delete when `overwrite`,
raise `FileExistsError` otherwise) followed by the copy proper
(`copyBody`).  The `which_attributes` argument is omitted: it is threaded
only into `copy_attributes_to`, which acts on attribute state outside this
filesystem model (modelled separately below). -/
def copyTo : Nat → FS → File → File → Bool → Bool → FSRes
  | 0, s, _, _, _, _ => .error (.fuelOut, s)
  | n + 1, s, self, other, overwrite, dl =>
      if existsFS s other then
        if overwrite then
          match deleteFS n s other false with
          | .ok s' => copyBody n s' self other overwrite dl
          | .error e => .error e
        else .error (.alreadyExists, s)
      else copyBody n s self other overwrite dl
termination_by n _ _ _ _ _ => (n, 0, 0)

/-- The body of `copy_to` after the existing-target check: resolve the
source (`self.dereference(True)` when `dereference_links`), branch on its
type, then `source.copy_attributes_to(other, ...)` (a no-op on the state
modelled here).  The `FILE` branch streams `self.read_blocks()` into
`other.open_for_writing()`; the `FOLDER` branch creates the target folder
and `copy_into`s every child of `self`; the `LINK` branch recreates
`self.link_target` verbatim; an absent source raises
`FileNotFoundError`. -/
def copyBody : Nat → FS → File → File → Bool → Bool → FSRes
  | n, s, self, other, overwrite, dl =>
      match (if dl then derefN s n self else some self) with
      | none => .error (.fuelOut, s)
      | some source =>
          match ftypeFS s source with
          | some .file =>
              match readFS s n self with
              | .error e => .error e
              | .ok content => writeFS s n other content
          | some .folder =>
              match createFolder n s other false false with
              | .error e => .error e
              | .ok s₁ =>
                  match childrenOptN s₁ n self with
                  | none => .error (.fuelOut, s₁)
                  | some none => .error (.notImpl, s₁)
                  | some (some cs) => copyChildren n s₁ cs other dl
          | some .link =>
              match linkTargetFS s self with
              | some t => symlinkFS s other t
              | none => .error (.notImpl, s)
          | some .dev => .error (.notImpl, s)
          | none => .error (.notFound, s)
termination_by n _ _ _ _ _ => (n, 1, 0)

/-- The `for child in self.children: child.copy_into(other, ...)` loop of
the `FOLDER` branch: `copy_into` is `copy_to(other.child(self.name))` with
the *default* `overwrite=False` and the inherited `dereference_links`. -/
def copyChildren : Nat → FS → List File → File → Bool → FSRes
  | _, s, [], _, _ => .ok s
  | n, s, c :: rest, other, dl =>
      match copyTo n s c (childF other [nameF c]) false dl with
      | .ok s' => copyChildren n s' rest other dl
      | .error e => .error e
termination_by n _ cs _ _ => (n, 0, cs.length + 1)
end

/-!  ## `read_blocks` over a finite stream

`BaseFile.read_blocks(block_size)` reads successive chunks from the open
stream until a read returns the empty string.  The underlying stream is a
finite byte sequence; `f.read(k)` returns the next `min(k, remaining)`
bytes. -/

def readBlocksGo (bs : Nat) (data : List Nat) : List (List Nat) :=
  if h : data.take bs = [] then []
  else data.take bs :: readBlocksGo bs (data.drop bs)
termination_by data.length
decreasing_by
  have hbs : bs ≠ 0 := by
    intro hb; subst hb; simp at h
  have hd : data ≠ [] := by
    intro hd; subst hd; simp at h
  have : 0 < data.length := List.length_pos.mpr hd
  simp only [List.length_drop]
  omega

/-- `BaseFile.read_blocks(block_size=None)`: `block_size` defaults to
`BaseFile._default_block_size = 16384`. -/
def readBlocksM (blockSize : Option Nat) (data : List Nat) : List (List Nat) :=
  readBlocksGo (blockSize.getD 16384) data

/-!  ## `recurse` over finitely branching trees

`BaseFile.recurse(filter, include_self, recurse_skipped)` only consumes
`self.children` (a list, or `None` for non-folders), so we interpret it
over finitely branching trees.  The filter outcome constants `YIELD`,
`RECURSE` and `SKIP` live in `fileutils.constants`, which is not under
`src/`; per spec §3 they are modelled as distinct sentinels, all truthy
(non-boolean objects), with Python `True` an alias for yield-and-recurse
and `False` deferring to `recurse_skipped`. -/

/-- Modelled from the spec: the traversal-filter outcome values of
`fileutils.constants` (§3 of the spec; the module itself is not under
`src/`).  `SKIP`, `YIELD` and `RECURSE` are distinct truthy sentinel
objects; `BOTH` is Python `True`; `FF` is Python `False`, the only falsy
value. -/
inductive Outcome where
  | SKIP
  | YIELD
  | RECURSE
  | BOTH
  | FF
  deriving DecidableEq

/-- A file hierarchy as a tree: `isFolder = false` means `children` is
`None` (`kids` below masks any junk list). -/
inductive FTree where
  | mk (isFolder : Bool) (children : List FTree)

/-- `self.children`: `None` when not a folder. -/
def childrenOptT : FTree → Option (List FTree)
  | .mk b cs => if b then some cs else none

/-- `self.children or []`. -/
def kids (t : FTree) : List FTree :=
  (childrenOptT t).getD []

/-- `include in (YIELD, True) and include_self`. -/
def yieldsB (o : Outcome) (includeSelf : Bool) : Bool :=
  (match o with
   | .YIELD | .BOTH => true
   | _ => false) && includeSelf

/-- `include in (RECURSE, True) or (recurse_skipped and not include)`:
the sentinels are truthy, so `not include` holds only for `False`. -/
def recursesB (o : Outcome) (recurseSkipped : Bool) : Bool :=
  match o with
  | .RECURSE | .BOTH => true
  | .FF => recurseSkipped
  | _ => false

/-- `include = True if filter is None else filter(self)`. -/
def outcomeOf (flt : Option (FTree → Outcome)) (t : FTree) : Outcome :=
  match flt with
  | none => Outcome.BOTH
  | some fn => fn t

/-- `BaseFile.recurse(filter, include_self, recurse_skipped)`
(`interface.py`): evaluate the filter on self (`True` when no filter is
given), yield self when the outcome includes yielding and `include_self`,
then recurse into the children — each recursive call with
`include_self=True`. -/
def recurse (flt : Option (FTree → Outcome)) (rs : Bool) (t : FTree) (includeSelf : Bool) :
    List FTree :=
  (if yieldsB (outcomeOf flt t) includeSelf then [t] else []) ++
    (if recursesB (outcomeOf flt t) rs then
      (kids t).attach.flatMap (fun c => recurse flt rs c.1 true)
     else [])
termination_by t
decreasing_by
  have hm : c.1 ∈ kids t := c.2
  have : sizeOf c.1 < sizeOf t := by
    rcases t with ⟨b, cs⟩
    have hcs : c.1 ∈ cs := by
      simp only [kids, childrenOptT] at hm
      rcases b with _ | _
      · simp at hm
      · simpa using hm
    have := List.sizeOf_lt_of_mem hcs
    simp only [FTree.mk.sizeOf_spec]
    omega
  exact this

/-- The spec's pre-order walk (§4.6 / §8): self first, then each child's
entire sequence in order. -/
def preOrder (t : FTree) : List FTree :=
  t :: (kids t).attach.flatMap (fun c => preOrder c.1)
termination_by t
decreasing_by
  have hm : c.1 ∈ kids t := c.2
  rcases t with ⟨b, cs⟩
  have hcs : c.1 ∈ cs := by
    simp only [kids, childrenOptT] at hm
    rcases b with _ | _
    · simp at hm
    · simpa using hm
  have := List.sizeOf_lt_of_mem hcs
  simp only [FTree.mk.sizeOf_spec]
  omega

/-!  ## Attribute transfer

Attribute stores are association lists.  `ExtendedAttributes.copy_to`
(`attributes.py`) iterates `self.list()` and `set`s each attribute on the
target, swallowing `EnvironmentError` (raised by filesystems that restrict
attribute names, modelled by the target's `allowed` predicate). -/

def lookupS (l : List (String × List Nat)) (n : String) : Option (List Nat) :=
  match l with
  | [] => none
  | (m, v) :: rest => if m = n then some v else lookupS rest n

/-- `setxattr` creates or replaces the named attribute. -/
def setName (l : List (String × List Nat)) (n : String) (v : List Nat) :
    List (String × List Nat) :=
  match l with
  | [] => [(n, v)]
  | (m, w) :: rest => if m = n then (n, v) :: rest else (m, w) :: setName rest n v

/-- Extended-attribute state of one file: its attributes plus the names its
filesystem accepts (`set` on a rejected name raises `EnvironmentError`). -/
structure XTgt where
  attrs : List (String × List Nat)
  allowed : String → Bool

/-- `ExtendedAttributes.set`, `none` = `EnvironmentError`. -/
def xattrSet (t : XTgt) (n : String) (v : List Nat) : Option XTgt :=
  if t.allowed n then some { t with attrs := setName t.attrs n v } else none

/-- `ExtendedAttributes.copy_to(other)` (`attributes.py`): for each name in
`self.list()`, `try: other.set(name, self.get(name)) except
EnvironmentError: pass` — the target's existing attributes are
deliberately *not* deleted first (see the comment in the source). -/
def xattrCopyTo (src : List (String × List Nat)) (t : XTgt) : XTgt :=
  (src.map Prod.fst).foldl
    (fun acc n =>
      match lookupS src n with
      | some v =>
          match xattrSet acc n v with
          | some acc' => acc'
          | none => acc
      | none => acc)  -- `self.get` cannot fail on a listed name
    t

/-- The behaviour the spec sentence describes (delete every attribute
already on the target, then copy): stated only to be compared with
`xattrCopyTo`. -/
def xattrCopyToClaimed (src : List (String × List Nat)) (t : XTgt) : XTgt :=
  xattrCopyTo src { t with attrs := [] }

/-!  ### `copy_attributes_to`

`BaseFile.copy_attributes_to(other, which_attributes)` (`interface.py`),
generic over the kind tag `K` and the per-kind attribute state `A`.  A
`which_attributes` value is `True`, `False` or a two-argument function;
the dictionary may also hold a fallback entry under the key `None`. -/

inductive CopySpec (A : Type) where
  | yes
  | no
  | custom (fn : A → A → A)

/-- What an `AttributeSet` subclass contributes: its `copy_to` (as a
function from source and target state to the new target state) and its
`copy_by_default`. -/
structure KindOps (A : Type) where
  copyToFn : A → A → A
  copyByDefault : Bool

def lookupK {K : Type} [DecidableEq K] {B : Type} (l : List (K × B)) (k : K) : Option B :=
  match l with
  | [] => none
  | (m, v) :: rest => if m = k then some v else lookupK rest k

/-- Replace the value at a present key, keeping positions (the mutation of
one kind's attribute-set instance). -/
def updateK {K : Type} [DecidableEq K] {B : Type} : List (K × B) → K → B → List (K × B)
  | [], _, _ => []
  | (m, w) :: rest, k, v =>
      if m = k then (k, v) :: updateK rest k v else (m, w) :: updateK rest k v

/-- `copy_attributes_to`: for every kind on `self` that is also on
`other`, resolve the spec (explicit entry, else the `None` entry, else the
kind's `copy_by_default`) and apply it: `True` ⇒ the kind's `copy_to`,
`False` ⇒ skip, function ⇒ call with (source instance, target instance). -/
def copyAttributesTo {K : Type} [DecidableEq K] {A : Type} (ops : K → KindOps A)
    (selfA : List (K × A)) (otherA : List (K × A))
    (wa : List (Option K × CopySpec A)) : List (K × A) :=
  selfA.foldl
    (fun acc kv =>
      match lookupK acc kv.1 with
      | none => acc
      | some theirs =>
          let spec := match lookupK wa (some kv.1) with
                      | some sp => sp
                      | none =>
                          match lookupK wa none with
                          | some d => d
                          | none => if (ops kv.1).copyByDefault then .yes else .no
          match spec with
          | .yes => updateK acc kv.1 ((ops kv.1).copyToFn kv.2 theirs)
          | .no => acc
          | .custom fn => updateK acc kv.1 (fn kv.2 theirs))
    otherA

/-- The claim's resolution rule, stated on its own: the kind's explicit
entry if present, else the entry under `None` if present, else the kind's
own `copy_by_default`. -/
def resolvePolicy {K : Type} [DecidableEq K] {A : Type} (ops : K → KindOps A)
    (wa : List (Option K × CopySpec A)) (k : K) : CopySpec A :=
  match lookupK wa (some k) with
  | some sp => sp
  | none =>
      match lookupK wa none with
      | some d => d
      | none => if (ops k).copyByDefault then .yes else .no

/-- The value `copy_attributes_to` leaves at a kind present on both sides,
according to the resolved policy. -/
def applyPolicy {K : Type} [DecidableEq K] {A : Type} (ops : K → KindOps A)
    (wa : List (Option K × CopySpec A)) (k : K) (ours theirs : A) : A :=
  match resolvePolicy ops wa k with
  | .yes => (ops k).copyToFn ours theirs
  | .no => theirs
  | .custom fn => fn ours theirs

/-!  ## Finite acyclic symlink chains -/

/-- A finite, acyclic symlink chain from `f` to a non-link `g`: the
hypothesis of the termination half of the `dereference` claim.  One step
resolves the link target relative to the link's parent, exactly as
`dereference` does. -/
inductive Resolves (s : FS) : File → File → Prop where
  | notLink {f : File} : isLinkFS s f = false → Resolves s f f
  | step {f p g : File} {t : String} :
      isLinkFS s f = true → linkTargetFS s f = some t → parentF f = some p →
      Resolves s (childF p [t]) g → Resolves s f g

/-- A two-link cycle: `/a -> b`, `/b -> a`. -/
def cycFS : FS := [(["a"], FSNode.link "b"), (["b"], FSNode.link "a")]

def cycA : File := ⟨["a"]⟩

/-!  # Lemmas: path normalisation and the ancestor chain -/

theorem normFold_clean {acc : List String} {seg : String}
    (h : ∀ c ∈ acc, goodName c = true) (c : String) (hc : c ∈ normFold acc seg) :
    goodName c = true := by
  unfold normFold at hc
  by_cases h1 : seg = "" ∨ seg = "."
  · rw [if_pos h1] at hc
    exact h c hc
  · rw [if_neg h1] at hc
    by_cases h2 : seg = ".."
    · rw [if_pos h2] at hc
      exact h c ((List.dropLast_sublist acc).subset hc)
    · rw [if_neg h2] at hc
      rcases List.mem_append.mp hc with h3 | h3
      · exact h c h3
      · have heq : c = seg := by simpa using h3
        subst heq
        push_neg at h1
        simp only [goodName, Bool.and_eq_true, decide_eq_true_eq]
        exact ⟨⟨h1.1, h1.2⟩, h2⟩

theorem foldl_normFold_clean (segs : List String) :
    ∀ acc, (∀ c ∈ acc, goodName c = true) →
      ∀ c ∈ segs.foldl normFold acc, goodName c = true := by
  induction segs with
  | nil => intro acc h c hc; exact h c hc
  | cons s rest ih =>
      intro acc h c hc
      exact ih (normFold acc s) (fun d hd => normFold_clean h d hd) c hc

theorem normalize_clean (segs : List String) :
    ∀ c ∈ normalize segs, goodName c = true :=
  foldl_normFold_clean segs [] (by simp)

theorem childF_clean (f : File) (ns : List String) : CleanFile (childF f ns) :=
  fun c hc => normalize_clean _ c hc

theorem foldl_normFold_id {cs : List String} (h : ∀ c ∈ cs, goodName c = true) :
    ∀ acc, cs.foldl normFold acc = acc ++ cs := by
  induction cs with
  | nil => intro acc; simp
  | cons c rest ih =>
      intro acc
      have hc := h c (by simp)
      simp only [goodName, Bool.and_eq_true, decide_eq_true_eq] at hc
      have h1 : ¬(c = "" ∨ c = ".") := by
        rintro (hx | hx)
        · exact hc.1.1 hx
        · exact hc.1.2 hx
      have hstep : normFold acc c = acc ++ [c] := by
        unfold normFold
        rw [if_neg h1, if_neg hc.2]
      simp only [List.foldl_cons, hstep]
      rw [ih (fun d hd => h d (by simp [hd])) (acc ++ [c])]
      simp

theorem normalize_id {cs : List String} (h : ∀ c ∈ cs, goodName c = true) :
    normalize cs = cs := by
  unfold normalize
  rw [foldl_normFold_id h []]
  simp

theorem childF_nil {f : File} (hf : CleanFile f) : childF f [] = f := by
  cases f with
  | mk cs =>
      simp only [childF, joinSegs]
      rw [normalize_id hf]

theorem clean_no_empty {f : File} (hf : CleanFile f) : "" ∉ f.comps := by
  intro hmem
  have := hf "" hmem
  simp [goodName] at this

theorem pathComponents_nil : pathComponents ⟨[]⟩ = ["", ""] := rfl

theorem pathComponents_cons (x : String) (xs : List String) :
    pathComponents ⟨x :: xs⟩ = "" :: x :: xs := rfl

theorem pathComponents_inj {a b : File} (ha : "" ∉ a.comps) (hb : "" ∉ b.comps) :
    sameAsB a b = true ↔ a = b := by
  cases a with
  | mk la =>
      cases b with
      | mk lb =>
          simp only [sameAsB, decide_eq_true_eq, File.mk.injEq]
          cases la with
          | nil =>
              cases lb with
              | nil => simp
              | cons y ys =>
                  rw [pathComponents_nil, pathComponents_cons]
                  constructor
                  · intro h
                    injection h with h1 h2
                    injection h2 with h3 h4
                    subst h3
                    exact absurd (List.mem_cons_self _ _) hb
                  · intro h
                    exact absurd h (by simp)
          | cons x xs =>
              cases lb with
              | nil =>
                  rw [pathComponents_nil, pathComponents_cons]
                  constructor
                  · intro h
                    injection h with h1 h2
                    injection h2 with h3 h4
                    subst h3
                    exact absurd (List.mem_cons_self _ _) ha
                  · intro h
                    exact absurd h (by simp)
              | cons y ys =>
                  rw [pathComponents_cons, pathComponents_cons]
                  simp

theorem chainFrom_none {f : File} (hp : parentF f = none) : chainFrom f = [f] := by
  rw [chainFrom]
  split
  · rfl
  · rename_i p hps
    rw [hp] at hps
    simp at hps

theorem chainFrom_some {f p : File} (hp : parentF f = some p) :
    chainFrom f = f :: chainFrom p := by
  rw [chainFrom]
  split
  · rename_i hps
    rw [hp] at hps
    simp at hps
  · rename_i q hps
    rw [hp] at hps
    injection hps with h
    rw [h]

theorem parentF_nil : parentF ⟨[]⟩ = none := rfl

theorem parentF_cons (c0 : String) (cs0 : List String) :
    parentF ⟨c0 :: cs0⟩ = some ⟨(c0 :: cs0).dropLast⟩ := rfl

theorem chainFrom_mem :
    ∀ (n : Nat) (cs : List String), cs.length ≤ n →
      ∀ a, (a ∈ chainFrom ⟨cs⟩ ↔ ∃ k ≤ cs.length, a = ⟨cs.take k⟩) := by
  intro n
  induction n with
  | zero =>
      intro cs hcs a
      have hnil : cs = [] := List.length_eq_zero.mp (Nat.le_zero.mp hcs)
      subst hnil
      rw [chainFrom_none parentF_nil]
      simp only [List.mem_singleton, List.take_nil, List.length_nil]
      constructor
      · intro h
        exact ⟨0, le_refl _, h⟩
      · rintro ⟨k, _, h⟩
        exact h
  | succ n ih =>
      intro cs hcs a
      cases cs with
      | nil =>
          rw [chainFrom_none parentF_nil]
          simp only [List.mem_singleton, List.take_nil, List.length_nil]
          constructor
          · intro h
            exact ⟨0, le_refl _, h⟩
          · rintro ⟨k, _, h⟩
            exact h
      | cons c0 cs0 =>
          rw [chainFrom_some (parentF_cons c0 cs0), List.mem_cons]
          have hlen : (c0 :: cs0).dropLast.length ≤ n := by
            rw [List.length_dropLast]
            simp only [List.length_cons] at hcs ⊢
            omega
          rw [ih (c0 :: cs0).dropLast hlen a]
          have htake : ∀ k, k ≤ (c0 :: cs0).dropLast.length →
              (c0 :: cs0).dropLast.take k = (c0 :: cs0).take k := by
            intro k hk
            rw [List.dropLast_eq_take, List.take_take]
            rw [List.dropLast_eq_take, List.length_take] at hk
            congr 1
            simp only [List.length_cons] at hk ⊢
            omega
          constructor
          · rintro (h | ⟨k, hk, h⟩)
            · exact ⟨(c0 :: cs0).length, le_refl _, by rw [List.take_length]; exact h⟩
            · refine ⟨k, ?_, ?_⟩
              · rw [List.length_dropLast] at hk
                simp only [List.length_cons] at hk ⊢
                omega
              · rw [← htake k hk]
                exact h
          · rintro ⟨k, hk, h⟩
            by_cases hkl : k = (c0 :: cs0).length
            · left
              rw [h, hkl, List.take_length]
            · right
              have hk' : k ≤ (c0 :: cs0).dropLast.length := by
                rw [List.length_dropLast]
                simp only [List.length_cons] at hk hkl ⊢
                omega
              exact ⟨k, hk', by rw [htake k hk']; exact h⟩

theorem getAncestors_false_mem (c a : File) :
    a ∈ getAncestors c false ↔ ∃ k < c.comps.length, a = ⟨c.comps.take k⟩ := by
  cases c with
  | mk cs =>
      unfold getAncestors
      simp only [Bool.false_eq_true, if_false]
      cases cs with
      | nil =>
          rw [parentF_nil]
          simp
      | cons c0 cs0 =>
          rw [parentF_cons c0 cs0]
          rw [chainFrom_mem (c0 :: cs0).dropLast.length (c0 :: cs0).dropLast (le_refl _) a]
          have htake : ∀ k, k ≤ (c0 :: cs0).dropLast.length →
              (c0 :: cs0).dropLast.take k = (c0 :: cs0).take k := by
            intro k hk
            rw [List.dropLast_eq_take, List.take_take]
            rw [List.dropLast_eq_take, List.length_take] at hk
            congr 1
            simp only [List.length_cons] at hk ⊢
            omega
          constructor
          · rintro ⟨k, hk, h⟩
            refine ⟨k, ?_, ?_⟩
            · rw [List.length_dropLast] at hk
              simp only [List.length_cons] at hk ⊢
              omega
            · rw [← htake k hk]
              exact h
          · rintro ⟨k, hk, h⟩
            have hk' : k ≤ (c0 :: cs0).dropLast.length := by
              rw [List.length_dropLast]
              simp only [List.length_cons] at hk ⊢
              omega
            exact ⟨k, hk', by rw [htake k hk']; exact h⟩


theorem take_clean {f : File} (hf : CleanFile f) (k : Nat) :
    CleanFile (⟨f.comps.take k⟩ : File) := by
  intro x hx
  exact hf x (List.mem_of_mem_take hx)

/-- `descendant_of` (hence `ancestor_of`), on normalised paths, is exactly
strict path-prefix: the ancestors of `c` are the proper prefixes of its
component list, and `same_as` is equality of components. -/
theorem descendantOfB_char {c f : File} (hc : CleanFile c) (hf : CleanFile f) :
    descendantOfB c f false = true ↔
      f.comps.length < c.comps.length ∧ c.comps.take f.comps.length = f.comps := by
  unfold descendantOfB
  rw [List.any_eq_true]
  constructor
  · rintro ⟨a, ha, hsame⟩
    rcases (getAncestors_false_mem c a).mp ha with ⟨k, hk, rfl⟩
    have heq : f = ⟨c.comps.take k⟩ :=
      (pathComponents_inj (clean_no_empty hf) (clean_no_empty (take_clean hc k))).mp hsame
    have hlenf : f.comps.length = k := by
      rw [heq]
      simp only [List.length_take]
      omega
    constructor
    · omega
    · rw [hlenf, heq]
  · rintro ⟨hlt, htk⟩
    refine ⟨⟨c.comps.take f.comps.length⟩, ?_, ?_⟩
    · exact (getAncestors_false_mem c _).mpr ⟨f.comps.length, hlt, rfl⟩
    · rw [htk]
      have : f = (⟨f.comps⟩ : File) := by cases f; rfl
      rw [← this]
      simp [sameAsB]


/-!  # Claims C7 and C10: `safe_child` -/

/-- C7: For every handle `h` and name sequence `ns`, `safe_child(*ns)`
returns exactly `h.child(*ns)` when that result is a descendant of `h`
(per `ancestor_of`/`same_as`, characterised on normalised paths as strict
component-prefix), and fails with the escape error when it is not; `..`
segments are permitted so long as the resulting path resolves within
`h`. -/
theorem safeChild_spec (f : File) (hf : CleanFile f) (ns : List String) :
    safeChild f ns =
      if f.comps.length < (childF f ns).comps.length ∧
          (childF f ns).comps.take f.comps.length = f.comps
      then Except.ok (childF f ns)
      else Except.error () := by
  have hchar := descendantOfB_char (childF_clean f ns) hf
  unfold safeChild ancestorOfB
  by_cases hcond : f.comps.length < (childF f ns).comps.length ∧
      (childF f ns).comps.take f.comps.length = f.comps
  · rw [if_pos hcond]
    have hd : descendantOfB (childF f ns) f false = true := hchar.mpr hcond
    simp [hd]
  · rw [if_neg hcond]
    have hd : descendantOfB (childF f ns) f false = false := by
      cases hb : descendantOfB (childF f ns) f false
      · rfl
      · exact absurd (hchar.mp hb) hcond
    simp [hd]

/-- Witness for C7: under `/base`, `"a/b/../c"` stays inside (the `..`
resolves within bounds) and `safe_child` returns the child; `"a/../.."`
escapes and `safe_child` fails. -/
theorem safeChild_spec_witness :
    CleanFile ⟨["base"]⟩ ∧
    safeChild ⟨["base"]⟩ ["a/b/../c"] = Except.ok ⟨["base", "a", "c"]⟩ ∧
    safeChild ⟨["base"]⟩ ["a/../.."] = Except.error () := by
  refine ⟨by decide, ?_, ?_⟩
  · rw [safeChild_spec ⟨["base"]⟩ (by decide) ["a/b/../c"]]
    rfl
  · rw [safeChild_spec ⟨["base"]⟩ (by decide) ["a/../.."]]
    rfl

/-- C10: `safe_child()` with zero names always raises: `child()` with no
names returns self itself, and `safe_child` accepts the result only if it
is a strict descendant of self (`ancestor_of` with its default
`including_self=False`), which self never is. -/
theorem safeChild_noNames (f : File) (hf : CleanFile f) :
    childF f [] = f ∧ safeChild f [] = Except.error () := by
  have hnil : childF f [] = f := childF_nil hf
  refine ⟨hnil, ?_⟩
  unfold safeChild ancestorOfB
  rw [hnil]
  have hd : descendantOfB f f false = false := by
    cases hb : descendantOfB f f false
    · rfl
    · have := (descendantOfB_char hf hf).mp hb
      exact absurd this.1 (lt_irrefl _)
  simp [hd]

/-- Witness for C10 at the concrete handle `/home/user`. -/
theorem safeChild_noNames_witness :
    CleanFile ⟨["home", "user"]⟩ ∧
    childF ⟨["home", "user"]⟩ [] = ⟨["home", "user"]⟩ ∧
    safeChild ⟨["home", "user"]⟩ [] = Except.error () := by
  refine ⟨by decide, ?_, ?_⟩
  · exact (safeChild_noNames ⟨["home", "user"]⟩ (by decide)).1
  · exact (safeChild_noNames ⟨["home", "user"]⟩ (by decide)).2

/-!  # Claim C9: recursive `dereference` -/

theorem derefN_sound :
    ∀ (n : Nat) (s : FS) (f g : File), derefN s n f = some g → isLinkFS s g = false := by
  intro n s
  induction n with
  | zero =>
      intro f g h
      simp [derefN] at h
  | succ n ih =>
      intro f g h
      rw [derefN] at h
      by_cases hl : isLinkFS s f = true
      · rw [if_pos hl] at h
        cases ht : linkTargetFS s f with
        | none => rw [ht] at h; simp at h
        | some t =>
            cases hp : parentF f with
            | none => rw [ht, hp] at h; simp at h
            | some p =>
                rw [ht, hp] at h
                exact ih (childF p [t]) g h
      · rw [if_neg hl] at h
        injection h with h
        subst h
        exact Bool.not_eq_true _ ▸ Bool.of_not_eq_true hl

/-- C9: `dereference(recursive=True)` resolves each link target relative
to the link's parent directory; it terminates with a non-link handle on
every finite acyclic symlink chain, and on a cyclic chain (`/a -> b`,
`/b -> a`) it never terminates — no amount of fuel makes it return. -/
theorem dereference_spec :
    (∀ (s : FS) (f g : File), Resolves s f g →
        ∃ n, derefN s n f = some g ∧ isLinkFS s g = false) ∧
    (∀ n, derefN cycFS n cycA = none) := by
  constructor
  · intro s f g h
    induction h with
    | notLink hnl => exact ⟨1, by simp [derefN, hnl], hnl⟩
    | step hl ht hp _ ih =>
        rcases ih with ⟨n, hd, hg⟩
        refine ⟨n + 1, ?_, hg⟩
        rw [derefN, if_pos hl, ht, hp]
        exact hd
  · have key : ∀ n, derefN cycFS n cycA = none ∧ derefN cycFS n ⟨["b"]⟩ = none := by
      intro n
      induction n with
      | zero => exact ⟨rfl, rfl⟩
      | succ n ih =>
          constructor
          · rw [derefN, if_pos (by decide : isLinkFS cycFS cycA = true),
                show linkTargetFS cycFS cycA = some "b" from by decide,
                show parentF cycA = some ⟨[]⟩ from by decide]
            change derefN cycFS n (childF ⟨[]⟩ ["b"]) = none
            rw [show childF ⟨[]⟩ ["b"] = (⟨["b"]⟩ : File) from by decide]
            exact ih.2
          · rw [derefN, if_pos (by decide : isLinkFS cycFS ⟨["b"]⟩ = true),
                show linkTargetFS cycFS ⟨["b"]⟩ = some "a" from by decide,
                show parentF (⟨["b"]⟩ : File) = some ⟨[]⟩ from by decide]
            change derefN cycFS n (childF ⟨[]⟩ ["a"]) = none
            rw [show childF ⟨[]⟩ ["a"] = (⟨["a"]⟩ : File) from by decide]
            exact ih.1
    intro n
    exact (key n).1

/-- Witness for C9: the chain `/a -> b` with `/b` a regular file is finite
and acyclic, and `dereference` resolves `/a` to `/b`. -/
theorem dereference_spec_witness :
    Resolves [(["a"], FSNode.link "b"), (["b"], FSNode.file [])] ⟨["a"]⟩ ⟨["b"]⟩ ∧
    ∃ n, derefN [(["a"], FSNode.link "b"), (["b"], FSNode.file [])] n ⟨["a"]⟩ =
          some ⟨["b"]⟩ ∧
        isLinkFS [(["a"], FSNode.link "b"), (["b"], FSNode.file [])] ⟨["b"]⟩ = false := by
  have hres : Resolves [(["a"], FSNode.link "b"), (["b"], FSNode.file [])]
      ⟨["a"]⟩ ⟨["b"]⟩ := by
    have h1 : isLinkFS [(["a"], FSNode.link "b"), (["b"], FSNode.file [])]
        ⟨["a"]⟩ = true := by decide
    have h2 : linkTargetFS [(["a"], FSNode.link "b"), (["b"], FSNode.file [])]
        ⟨["a"]⟩ = some "b" := by decide
    have h3 : parentF (⟨["a"]⟩ : File) = some ⟨[]⟩ := by decide
    have h4 : Resolves [(["a"], FSNode.link "b"), (["b"], FSNode.file [])]
        (childF ⟨[]⟩ ["b"]) ⟨["b"]⟩ := by
      rw [show childF ⟨[]⟩ ["b"] = (⟨["b"]⟩ : File) from by decide]
      exact Resolves.notLink (by decide)
    exact Resolves.step h1 h2 h3 h4
  exact ⟨hres, dereference_spec.1 _ _ _ hres⟩

/-!  # Claim C6: `delete` never traverses a symbolic link -/

theorem lookupFS_cons (k : List String) (v : FSNode) (rest : FS) (q : List String) :
    lookupFS ((k, v) :: rest) q = if k = q then some v else lookupFS rest q := rfl

theorem lookupFS_eraseKey (s : FS) (p q : List String) :
    lookupFS (eraseKey s p) q = if q = p then none else lookupFS s q := by
  induction s with
  | nil => simp [eraseKey, lookupFS]
  | cons e rest ih =>
      rcases e with ⟨k, v⟩
      unfold eraseKey at ih ⊢
      rw [List.filter_cons]
      by_cases hk : k = p
      · rw [show (decide ((k, v).1 ≠ p)) = false from by simp [hk]]
        simp only [Bool.false_eq_true, if_false]
        rw [ih]
        by_cases hq : q = p
        · rw [if_pos hq, if_pos hq]
        · rw [if_neg hq, if_neg hq, lookupFS_cons,
            if_neg (show ¬k = q from fun h => hq (h ▸ hk))]
      · rw [show (decide ((k, v).1 ≠ p)) = true from by simp [hk]]
        simp only [if_true]
        rw [lookupFS_cons]
        by_cases hkq : k = q
        · rw [if_pos hkq,
            if_neg (show ¬q = p from fun h => hk (hkq.trans h)),
            lookupFS_cons, if_pos hkq]
        · rw [if_neg hkq, ih]
          by_cases hq : q = p
          · rw [if_pos hq, if_pos hq]
          · rw [if_neg hq, if_neg hq, lookupFS_cons, if_neg hkq]

/-- C6: `delete` never traverses a symbolic link.  First half: on any
handle whose `lstat` type is `LINK` (whatever it points to, folders
included), provided the `is_folder` classification terminates, `delete`
removes exactly the link's own entry — every other path, in particular the
link's target and all of the target's children, is untouched.  Second
half: only a handle that is a folder and not a link reaches the
children-first branch (`os.rmdir` after deleting every child). -/
theorem delete_link_spec :
    (∀ (n : Nat) (s : FS) (f : File) (im : Bool),
        ftypeFS s f = some FType.link →
        isFolderB s n f ≠ none →
        deleteFS (n + 1) s f im = .ok (eraseKey s f.comps) ∧
        ∀ p, p ≠ f.comps → lookupFS (eraseKey s f.comps) p = lookupFS s p) ∧
    (∀ (n : Nat) (s : FS) (f : File) (im : Bool) (cs : List File),
        ftypeFS s f = some FType.folder →
        childrenOptN s n f = some (some cs) →
        deleteFS (n + 1) s f im =
          match deleteChildren n s cs with
          | .ok s' => .ok (eraseKey s' f.comps)
          | .error e => .error e) := by
  constructor
  · intro n s f im hft hfb
    have hex : existsFS s f = true := by simp [existsFS, hft]
    have hlink : isLinkFS s f = true := by simp [isLinkFS, hft]
    obtain ⟨fb, hfb'⟩ := Option.ne_none_iff_exists'.mp hfb
    constructor
    · rw [deleteFS, hex]
      simp only [Bool.true_eq_false, if_false]
      rw [hfb', hlink]
      simp
    · intro p hp
      rw [lookupFS_eraseKey, if_neg hp]
  · intro n s f im cs hft hcs
    have hex : existsFS s f = true := by simp [existsFS, hft]
    have hlink : isLinkFS s f = false := by simp [isLinkFS, hft]
    have hfb : isFolderB s n f = some true := by
      unfold childrenOptN at hcs
      cases hb : isFolderB s n f with
      | none => rw [hb] at hcs; simp at hcs
      | some b =>
          cases b
          · rw [hb] at hcs; simp at hcs
          · rfl
    rw [deleteFS, hex]
    simp only [Bool.true_eq_false, if_false]
    rw [hfb, hlink]
    simp only [Bool.not_false, Bool.and_true, if_true]
    rw [hcs]

/-- Witness for C6: in a state with a folder `/d` containing `/d/x` and a
link `/l -> d`, deleting `/l` removes only the `/l` entry; `/d` and `/d/x`
survive. -/
theorem delete_link_spec_witness :
    ftypeFS [(["d"], FSNode.folder), (["d", "x"], FSNode.file [7]),
        (["l"], FSNode.link "d")] ⟨["l"]⟩ = some FType.link ∧
    isFolderB [(["d"], FSNode.folder), (["d", "x"], FSNode.file [7]),
        (["l"], FSNode.link "d")] 4 ⟨["l"]⟩ ≠ none ∧
    deleteFS 5 [(["d"], FSNode.folder), (["d", "x"], FSNode.file [7]),
        (["l"], FSNode.link "d")] ⟨["l"]⟩ false =
      .ok (eraseKey [(["d"], FSNode.folder), (["d", "x"], FSNode.file [7]),
        (["l"], FSNode.link "d")] ["l"]) ∧
    eraseKey [(["d"], FSNode.folder), (["d", "x"], FSNode.file [7]),
        (["l"], FSNode.link "d")] ["l"] =
      [(["d"], FSNode.folder), (["d", "x"], FSNode.file [7])] := by
  refine ⟨by decide, by decide, ?_, by decide⟩
  exact (delete_link_spec.1 4 _ ⟨["l"]⟩ false (by decide) (by decide)).1

/-!  # Claim C1: `copy_to` target check, overwrite order, absent source -/

theorem ftypeFS_none_iff (s : FS) (f : File) :
    ftypeFS s f = none ↔ lookupFS s f.comps = none := by
  unfold ftypeFS
  cases h : lookupFS s f.comps with
  | none => simp
  | some v => cases v <;> simp

theorem deleteFS_removes :
    ∀ (n : Nat) (s : FS) (f : File) (im : Bool) (s' : FS),
      deleteFS n s f im = .ok s' → lookupFS s' f.comps = none := by
  intro n s f im s' h
  cases n with
  | zero => simp [deleteFS] at h
  | succ n =>
      rw [deleteFS] at h
      split at h
      · -- target does not exist
        rename_i hex
        split at h
        · injection h with h
          subst h
          cases hft : ftypeFS s f with
          | none => exact (ftypeFS_none_iff s f).mp hft
          | some v =>
              unfold existsFS at hex
              rw [hft] at hex
              simp at hex
        · simp at h
      · split at h
        · simp at h
        · split at h
          · split at h
            · simp at h
            · simp at h
            · split at h
              · rename_i s₁ hdc
                injection h with h
                subst h
                rw [lookupFS_eraseKey]
                simp
              · simp at h
          · injection h with h
            subst h
            rw [lookupFS_eraseKey]
            simp

/-- C1: in `copy_to(target, overwrite, dereference_links)`: (a) if the
target exists and `overwrite` is false, the call fails with
`FileExistsError` with the state untouched — nothing has been copied yet;
(b) if the target exists and `overwrite` is true, the target is deleted
first and the copy proper runs on the post-delete state (in which the
target's entry is gone); (c) if the source resolved after the optional
dereferencing is absent, the copy proper fails with `FileNotFoundError`. -/
theorem copyTo_precheck_spec :
    (∀ (n : Nat) (s : FS) (self other : File) (dl : Bool),
        existsFS s other = true →
        copyTo (n + 1) s self other false dl = .error (.alreadyExists, s)) ∧
    (∀ (n : Nat) (s : FS) (self other : File) (dl : Bool),
        existsFS s other = true →
        copyTo (n + 1) s self other true dl =
          (match deleteFS n s other false with
           | .ok s' => copyBody n s' self other true dl
           | .error e => .error e) ∧
        ∀ s', deleteFS n s other false = .ok s' → lookupFS s' other.comps = none) ∧
    (∀ (n : Nat) (s : FS) (self other : File) (ow dl : Bool) (src : File),
        (if dl then derefN s n self else some self) = some src →
        ftypeFS s src = none →
        copyBody n s self other ow dl = .error (.notFound, s)) := by
  refine ⟨?_, ?_, ?_⟩
  · intro n s self other dl h
    rw [copyTo, if_pos h]
    simp
  · intro n s self other dl h
    constructor
    · rw [copyTo, if_pos h]
      simp
    · intro s' hdel
      exact deleteFS_removes n s other false s' hdel
  · intro n s self other ow dl src hsrc hft
    rw [copyBody, hsrc]
    simp only [hft]

/-- Witness for C1: a state where `/dst` exists (branches (a) and (b)),
and a state where `/miss` is a link to the nonexistent `/gone` with
`dereference_links=True` (branch (c)). -/
theorem copyTo_precheck_spec_witness :
    existsFS [(["src"], FSNode.file [1, 2, 3]), (["dst"], FSNode.file [9])]
        ⟨["dst"]⟩ = true ∧
    copyTo 6 [(["src"], FSNode.file [1, 2, 3]), (["dst"], FSNode.file [9])]
        ⟨["src"]⟩ ⟨["dst"]⟩ false true =
      .error (.alreadyExists,
        [(["src"], FSNode.file [1, 2, 3]), (["dst"], FSNode.file [9])]) ∧
    copyTo 6 [(["src"], FSNode.file [1, 2, 3]), (["dst"], FSNode.file [9])]
        ⟨["src"]⟩ ⟨["dst"]⟩ true true =
      (match deleteFS 5 [(["src"], FSNode.file [1, 2, 3]), (["dst"], FSNode.file [9])]
          ⟨["dst"]⟩ false with
       | .ok s' => copyBody 5 s' ⟨["src"]⟩ ⟨["dst"]⟩ true true
       | .error e => .error e) ∧
    (if (true : Bool) then derefN [(["miss"], FSNode.link "gone")] 5 ⟨["miss"]⟩
     else some ⟨["miss"]⟩) = some ⟨["gone"]⟩ ∧
    ftypeFS [(["miss"], FSNode.link "gone")] ⟨["gone"]⟩ = none ∧
    copyBody 5 [(["miss"], FSNode.link "gone")] ⟨["miss"]⟩ ⟨["dst"]⟩ false true =
      .error (.notFound, [(["miss"], FSNode.link "gone")]) := by
  refine ⟨by decide, ?_, ?_, by decide, by decide, ?_⟩
  · exact copyTo_precheck_spec.1 5 _ ⟨["src"]⟩ ⟨["dst"]⟩ true (by decide)
  · exact (copyTo_precheck_spec.2.1 5 _ ⟨["src"]⟩ ⟨["dst"]⟩ true (by decide)).1
  · exact copyTo_precheck_spec.2.2 5 _ ⟨["miss"]⟩ ⟨["dst"]⟩ false true ⟨["gone"]⟩
      (by decide) (by decide)

/-!  # Claim C8: `write` / `read` / `size` round trip -/

theorem lookupFS_insertFS (s : FS) (p : List String) (v : FSNode) (q : List String) :
    lookupFS (insertFS s p v) q = if q = p then some v else lookupFS s q := by
  unfold insertFS
  rw [lookupFS_cons]
  by_cases h : p = q
  · rw [if_pos h, if_pos h.symm]
  · rw [if_neg h, if_neg (fun hq => h hq.symm), lookupFS_eraseKey,
      if_neg (fun hq => h hq.symm)]

/-- The final-symlink resolution of `f` is unchanged by a state update
that touches only the resolved path and leaves it a non-link. -/
theorem derefN_stable :
    ∀ (n : Nat) (s s' : FS) (f r : File),
      derefN s n f = some r →
      (∀ q, q ≠ r.comps → lookupFS s' q = lookupFS s q) →
      isLinkFS s' r = false →
      derefN s' n f = some r := by
  intro n s s'
  induction n with
  | zero =>
      intro f r h
      simp [derefN] at h
  | succ n ih =>
      intro f r h hframe hnl
      have hrs : isLinkFS s r = false := derefN_sound (n + 1) s f r h
      rw [derefN] at h ⊢
      by_cases hl : isLinkFS s f = true
      · have hfr : f.comps ≠ r.comps := by
          intro he
          have : f = r := by cases f; cases r; simpa using he
          rw [this, hrs] at hl
          simp at hl
        have hl' : isLinkFS s' f = true := by
          unfold isLinkFS ftypeFS at hl ⊢
          rw [hframe f.comps hfr]
          exact hl
        rw [if_pos hl] at h
        rw [if_pos hl']
        have ht' : linkTargetFS s' f = linkTargetFS s f := by
          unfold linkTargetFS
          rw [hframe f.comps hfr]
        rw [ht']
        cases ht : linkTargetFS s f with
        | none => rw [ht] at h; simp at h
        | some t =>
            cases hp : parentF f with
            | none => rw [ht, hp] at h; simp at h
            | some p =>
                rw [ht, hp] at h
                exact ih (childF p [t]) r h hframe hnl
      · rw [if_neg hl] at h
        injection h with h
        subst h
        rw [if_neg (by rw [hnl]; simp : ¬isLinkFS s' f = true)]

/-- C8: whenever `write(data)` completes (`open(self.path, "wb")` plus a
full write), a subsequent `read()` returns exactly `data` and `size`
equals `len(data)`. -/
theorem write_read_size_spec :
    ∀ (n : Nat) (s : FS) (f : File) (data : List Nat) (s' : FS),
      writeFS s n f data = .ok s' →
      readFS s' n f = .ok data ∧ sizeN (n + 1) s' f = some data.length := by
  intro n s f data s' h
  unfold writeFS at h
  split at h
  · simp at h
  · rename_i r hd
    split at h
    · simp at h
    · simp at h
    · simp at h
    · split at h
      · simp at h
      · split at h
        · rename_i hroot hdir
          injection h with h
          subst h
          have hnl_s : isLinkFS s r = false := derefN_sound n s f r hd
          have hlookr : lookupFS (insertFS s r.comps (FSNode.file data)) r.comps =
              some (FSNode.file data) := by
            rw [lookupFS_insertFS]
            simp
          have hframe : ∀ q, q ≠ r.comps →
              lookupFS (insertFS s r.comps (FSNode.file data)) q = lookupFS s q := by
            intro q hq
            rw [lookupFS_insertFS, if_neg hq]
          have hnl' : isLinkFS (insertFS s r.comps (FSNode.file data)) r = false := by
            simp [isLinkFS, ftypeFS, hlookr]
          have hd' : derefN (insertFS s r.comps (FSNode.file data)) n f = some r :=
            derefN_stable n s _ f r hd hframe hnl'
          constructor
          · unfold readFS
            rw [hd']
            simp only [hlookr]
          · have hfb : isFolderB (insertFS s r.comps (FSNode.file data)) n f =
                some false := by
              unfold isFolderB
              rw [hd']
              simp [ftypeFS, hlookr]
            have hff : isFileB (insertFS s r.comps (FSNode.file data)) n f =
                some true := by
              unfold isFileB
              rw [hd']
              simp [ftypeFS, hlookr]
            rw [sizeN]
            simp only [hfb, hff]
            unfold getsizeN
            rw [hd']
            simp only [hlookr]
        · simp at h

/-- Witness for C8: overwriting `/f` (previously one byte) with two bytes;
`read` returns them and `size` is `2`. -/
theorem write_read_size_spec_witness :
    writeFS [(["f"], FSNode.file [1])] 3 ⟨["f"]⟩ [7, 8] =
      .ok [(["f"], FSNode.file [7, 8])] ∧
    readFS [(["f"], FSNode.file [7, 8])] 3 ⟨["f"]⟩ = .ok [7, 8] ∧
    sizeN 4 [(["f"], FSNode.file [7, 8])] ⟨["f"]⟩ = some 2 := by
  have hw : writeFS [(["f"], FSNode.file [1])] 3 ⟨["f"]⟩ [7, 8] =
      .ok [(["f"], FSNode.file [7, 8])] := rfl
  have h := write_read_size_spec 3 [(["f"], FSNode.file [1])] ⟨["f"]⟩ [7, 8]
    [(["f"], FSNode.file [7, 8])] hw
  exact ⟨hw, h.1, h.2⟩

/-!  # Claim C5: `read_blocks` chunking -/

theorem readBlocksGo_spec :
    ∀ (N : Nat) (bs : Nat) (data : List Nat), data.length ≤ N →
      (∀ c ∈ readBlocksGo bs data, c.length ≤ bs ∧ c ≠ []) ∧
      (readBlocksGo bs data).length ≤ data.length := by
  intro N
  induction N with
  | zero =>
      intro bs data hd
      have hnil : data = [] := List.length_eq_zero.mp (Nat.le_zero.mp hd)
      subst hnil
      rw [readBlocksGo]
      simp
  | succ N ih =>
      intro bs data hd
      rw [readBlocksGo]
      by_cases h : data.take bs = []
      · rw [dif_pos h]
        simp
      · rw [dif_neg h]
        have hbs : bs ≠ 0 := fun hb => h (by simp [hb])
        have hdata : data ≠ [] := fun hb => h (by simp [hb])
        have hpos : 0 < data.length := List.length_pos.mpr hdata
        have hlen : (data.drop bs).length ≤ N := by
          simp only [List.length_drop]
          omega
        have ihd := ih bs (data.drop bs) hlen
        constructor
        · intro c hc
          rcases List.mem_cons.mp hc with rfl | hc
          · refine ⟨?_, h⟩
            rw [List.length_take]
            omega
          · exact ihd.1 c hc
        · simp only [List.length_cons]
          have h2 := ihd.2
          simp only [List.length_drop] at h2
          omega

/-- C5: every chunk yielded by `read_blocks(block_size)` has length at
most `block_size` (which defaults to 16384), a zero-length chunk is never
yielded (the first empty read ends production), and a finite underlying
stream produces finitely many chunks — at most one per byte. -/
theorem readBlocks_spec :
    ∀ (bsOpt : Option Nat) (data : List Nat),
      (∀ c ∈ readBlocksM bsOpt data, c.length ≤ bsOpt.getD 16384 ∧ c ≠ []) ∧
      (readBlocksM bsOpt data).length ≤ data.length ∧
      readBlocksM none data = readBlocksM (some 16384) data := by
  intro bsOpt data
  have h := readBlocksGo_spec data.length (bsOpt.getD 16384) data (le_refl _)
  exact ⟨h.1, h.2, rfl⟩

/-- Witness for C5: with block size 2 over five bytes, the first chunk
`[1, 2]` is produced, is at most 2 long, and is nonempty. -/
theorem readBlocks_spec_witness :
    [1, 2] ∈ readBlocksM (some 2) [1, 2, 3, 4, 5] ∧
    List.length [1, 2] ≤ (some 2 : Option Nat).getD 16384 ∧ ([1, 2] : List Nat) ≠ [] := by
  have hmem : [1, 2] ∈ readBlocksM (some 2) [1, 2, 3, 4, 5] := by
    simp [readBlocksM, readBlocksGo]
  have h := (readBlocks_spec (some 2) [1, 2, 3, 4, 5]).1 [1, 2] hmem
  exact ⟨hmem, h.1, h.2⟩

/-!  # Claim C4: `recurse` pre-order traversal -/

theorem flatMap_congr {α β : Type} (l : List α) (f g : α → List β)
    (h : ∀ x ∈ l, f x = g x) : l.flatMap f = l.flatMap g := by
  induction l with
  | nil => rfl
  | cons x xs ih =>
      simp only [List.flatMap_cons]
      rw [h x (by simp), ih (fun y hy => h y (by simp [hy]))]

theorem sizeOf_lt_of_mem_kids {c t : FTree} (h : c ∈ kids t) : sizeOf c < sizeOf t := by
  rcases t with ⟨b, cs⟩
  have hcs : c ∈ cs := by
    simp only [kids, childrenOptT] at h
    rcases b with _ | _
    · simp at h
    · simpa using h
  have := List.sizeOf_lt_of_mem hcs
  simp only [FTree.mk.sizeOf_spec]
  omega

/-- C4: `recurse` is a pre-order walk.  First half: a call with
`include_self=True` is exactly the optional yield of self (when the filter
outcome includes yielding) followed by the `include_self=False` sequence —
so `include_self=False` omits only self, because every recursive call for
a descendant passes `include_self=True`.  Second half: with no filter, the
sequence is self first and then, for each child in order, that child's
entire recursive sequence before the next child's. -/
theorem recurse_spec :
    (∀ (flt : Option (FTree → Outcome)) (rs : Bool) (t : FTree),
        recurse flt rs t true =
          (if yieldsB (outcomeOf flt t) true then [t] else []) ++ recurse flt rs t false) ∧
    (∀ (rs : Bool) (t : FTree), recurse none rs t true = preOrder t) := by
  constructor
  · intro flt rs t
    rw [recurse, recurse]
    have hy : yieldsB (outcomeOf flt t) false = false := by
      unfold yieldsB
      simp
    rw [hy]
    simp
  · intro rs
    have main : ∀ (N : Nat) (t : FTree), sizeOf t ≤ N →
        recurse none rs t true = preOrder t := by
      intro N
      induction N with
      | zero =>
          intro t ht
          exfalso
          rcases t with ⟨b, cs⟩
          simp only [FTree.mk.sizeOf_spec] at ht
          omega
      | succ N ih =>
          intro t ht
          rw [recurse, preOrder]
          have hy : yieldsB (outcomeOf none t) true = true := rfl
          have hr : recursesB (outcomeOf none t) rs = true := rfl
          rw [hy, hr]
          simp only [if_true, List.singleton_append, List.cons.injEq, true_and]
          refine flatMap_congr _ _ _ ?_
          intro c _
          apply ih
          have := sizeOf_lt_of_mem_kids c.2
          omega
    intro t
    exact main (sizeOf t) t (le_refl _)

/-!  # Claim C3: `copy_attributes_to` policy resolution -/

theorem lookupK_cons {K : Type} [DecidableEq K] {B : Type} (m : K) (w : B)
    (rest : List (K × B)) (q : K) :
    lookupK ((m, w) :: rest) q = if m = q then some w else lookupK rest q := rfl

theorem lookupK_not_mem {K : Type} [DecidableEq K] {B : Type}
    (l : List (K × B)) (k : K) (h : k ∉ l.map Prod.fst) : lookupK l k = none := by
  induction l with
  | nil => rfl
  | cons e rest ih =>
      rcases e with ⟨m, w⟩
      rw [lookupK_cons]
      simp only [List.map_cons, List.mem_cons] at h
      push_neg at h
      rw [if_neg (fun hh : m = k => h.1 hh.symm), ih h.2]

theorem lookupK_updateK {K : Type} [DecidableEq K] {B : Type}
    (l : List (K × B)) (k : K) (v : B) (q : K) :
    lookupK (updateK l k v) q =
      if q = k then (lookupK l k).map (fun _ => v) else lookupK l q := by
  induction l with
  | nil =>
      unfold updateK
      simp [lookupK]
  | cons e rest ih =>
      rcases e with ⟨m, w⟩
      unfold updateK
      by_cases hm : m = k
      · rw [if_pos hm, lookupK_cons]
        by_cases hq : q = k
        · rw [if_pos (hq ▸ rfl : k = q), if_pos hq, lookupK_cons, if_pos hm]
          rfl
        · rw [if_neg (show ¬k = q from fun h => hq h.symm), ih, if_neg hq, if_neg hq,
            lookupK_cons, if_neg (show ¬m = q from fun h => hq (h.symm.trans hm))]
      · rw [if_neg hm, lookupK_cons]
        by_cases hq : q = k
        · rw [if_neg (show ¬m = q from fun h => hm (h.trans hq)), ih, if_pos hq,
            if_pos hq, lookupK_cons, if_neg hm]
        · by_cases hmq : m = q
          · rw [if_pos hmq, if_neg hq, lookupK_cons, if_pos hmq]
          · rw [if_neg hmq, ih, if_neg hq, if_neg hq, lookupK_cons, if_neg hmq]

/-- C3: `copy_attributes_to(other, which_attributes)` touches exactly the
kinds present on both sides; for such a kind the new value on `other` is
given by the resolved policy — the kind's explicit entry if present, else
the entry under `None` if present, else the kind's own `copy_by_default`
(`True` ⇒ the kind's `copy_to`, `False` ⇒ unchanged, function ⇒ the
function applied to (source instance, target instance)); every other kind
on `other` is unchanged. -/
theorem copyAttributesTo_spec {K : Type} [DecidableEq K] {A : Type}
    (ops : K → KindOps A) (wa : List (Option K × CopySpec A)) :
    ∀ (selfA otherA : List (K × A)), (selfA.map Prod.fst).Nodup →
      ∀ k, lookupK (copyAttributesTo ops selfA otherA wa) k =
        match lookupK selfA k, lookupK otherA k with
        | some ours, some theirs => some (applyPolicy ops wa k ours theirs)
        | _, _ => lookupK otherA k := by
  intro selfA
  induction selfA with
  | nil =>
      intro acc _ k
      cases h : lookupK acc k <;>
        simp [copyAttributesTo, lookupK, h]
  | cons kv rest ih =>
      intro acc hnd k
      rcases kv with ⟨k₀, v₀⟩
      simp only [List.map_cons, List.nodup_cons] at hnd
      have hstep : copyAttributesTo ops ((k₀, v₀) :: rest) acc wa =
          copyAttributesTo ops rest
            (match lookupK acc k₀ with
             | none => acc
             | some theirs =>
                 match resolvePolicy ops wa k₀ with
                 | .yes => updateK acc k₀ ((ops k₀).copyToFn v₀ theirs)
                 | .no => acc
                 | .custom fn => updateK acc k₀ (fn v₀ theirs)) wa := rfl
      rw [hstep, ih _ hnd.2 k]
      by_cases hk : k = k₀
      · subst hk
        rw [lookupK_not_mem rest k hnd.1, lookupK_cons, if_pos rfl]
        cases hT : lookupK acc k with
        | none => simp [hT]
        | some theirs =>
            simp only [hT]
            cases hpol : resolvePolicy ops wa k with
            | yes => simp [lookupK_updateK, hT, applyPolicy, hpol]
            | no => simp [hT, applyPolicy, hpol]
            | custom fn => simp [lookupK_updateK, hT, applyPolicy, hpol]
      · rw [lookupK_cons, if_neg (fun h => hk h.symm)]
        have hsame :
            lookupK (match lookupK acc k₀ with
             | none => acc
             | some theirs =>
                 match resolvePolicy ops wa k₀ with
                 | .yes => updateK acc k₀ ((ops k₀).copyToFn v₀ theirs)
                 | .no => acc
                 | .custom fn => updateK acc k₀ (fn v₀ theirs)) k = lookupK acc k := by
          cases hT : lookupK acc k₀ with
          | none => rfl
          | some theirs =>
              cases hpol : resolvePolicy ops wa k₀ with
              | yes => simp [lookupK_updateK, hk]
              | no => rfl
              | custom fn => simp [lookupK_updateK, hk]
        rw [hsame]

/-- Witness for C3: the spec's own scenario `{KindA: True, None: False}`
with KindB's `copy_by_default` true — only KindA is copied.  Kinds are
`Nat` (0 = KindA, 1 = KindB); a kind's `copy_to` assigns the source's
value, like `PosixPermissions.copy_to`. -/
theorem copyAttributesTo_spec_witness :
    (([(0, 10), (1, 20)] : List (Nat × Nat)).map Prod.fst).Nodup ∧
    lookupK (copyAttributesTo (fun k => ⟨fun o _ => o, k == 1⟩)
        [(0, 10), (1, 20)] [(0, 1), (1, 2)] [(some 0, .yes), (none, .no)]) 0 =
      some 10 ∧
    lookupK (copyAttributesTo (fun k => ⟨fun o _ => o, k == 1⟩)
        [(0, 10), (1, 20)] [(0, 1), (1, 2)] [(some 0, .yes), (none, .no)]) 1 =
      some 2 := by
  have h := copyAttributesTo_spec (fun k : Nat => (⟨fun o _ => o, k == 1⟩ : KindOps Nat))
    [(some 0, CopySpec.yes), (none, CopySpec.no)]
    [(0, 10), (1, 20)] [(0, 1), (1, 2)] (by decide)
  refine ⟨by decide, ?_, ?_⟩
  · rw [h 0]
    rfl
  · rw [h 1]
    rfl

/-!  # Claim C2: `ExtendedAttributes.copy_to` -/

theorem lookupS_cons (m : String) (w : List Nat) (rest : List (String × List Nat))
    (q : String) :
    lookupS ((m, w) :: rest) q = if m = q then some w else lookupS rest q := rfl

theorem lookupS_setName (l : List (String × List Nat)) (n : String) (v : List Nat)
    (q : String) :
    lookupS (setName l n v) q = if q = n then some v else lookupS l q := by
  induction l with
  | nil =>
      unfold setName
      rw [lookupS_cons]
      by_cases hq : q = n
      · rw [if_pos (hq ▸ rfl : n = q), if_pos hq]
      · rw [if_neg (show ¬n = q from fun h => hq h.symm), if_neg hq]
  | cons e rest ih =>
      rcases e with ⟨m, w⟩
      unfold setName
      by_cases hm : m = n
      · rw [if_pos hm, lookupS_cons, lookupS_cons]
        by_cases hq : q = n
        · rw [if_pos (hq ▸ rfl : n = q), if_pos hq]
        · rw [if_neg (show ¬n = q from fun h => hq h.symm), if_neg hq,
            if_neg (show ¬m = q from fun h => hq (h.symm.trans hm))]
      · rw [if_neg hm, lookupS_cons, lookupS_cons]
        by_cases hmq : m = q
        · rw [if_pos hmq, if_pos hmq,
            if_neg (show ¬q = n from fun h => hm (hmq.trans h))]
        · rw [if_neg hmq, if_neg hmq, ih]

theorem lookupS_isSome_of_mem (l : List (String × List Nat)) (n : String)
    (h : n ∈ l.map Prod.fst) : (lookupS l n).isSome = true := by
  induction l with
  | nil => simp at h
  | cons e rest ih =>
      rcases e with ⟨m, w⟩
      rw [lookupS_cons]
      by_cases hm : m = n
      · rw [if_pos hm]
        rfl
      · simp only [List.map_cons, List.mem_cons] at h
        rcases h with h | h
        · exact absurd h.symm hm
        · rw [if_neg hm]
          exact ih h

/-- Counterexample to C2 as stated: the code's `ExtendedAttributes.copy_to`
does *not* first delete the attributes already present on the target
(deliberately — see the comment in `attributes.py`).  With source
attributes `{user.a: [1]}` and a target that already has `user.b` (which
the source does not have), the code leaves `user.b` in place, while the
claimed delete-then-copy behaviour would remove it. -/
theorem xattrCopyTo_counterexample :
    lookupS (xattrCopyTo [("user.a", [1])]
        ⟨[("user.b", [2])], fun _ => true⟩).attrs "user.b" = some [2] ∧
    lookupS (xattrCopyToClaimed [("user.a", [1])]
        ⟨[("user.b", [2])], fun _ => true⟩).attrs "user.b" = none ∧
    lookupS [("user.a", [1])] "user.b" = none := by
  exact ⟨rfl, rfl, rfl⟩

/-- C2 (amended): `ExtendedAttributes.copy_to` copies every attribute from
the source onto the target *without* deleting the target's pre-existing
attributes; an attribute whose name the target's filesystem rejects
(`EnvironmentError` from `set`) is silently skipped, and the failure never
aborts the transfer — all other attributes are still copied. -/
theorem xattrCopyTo_spec :
    ∀ (src : List (String × List Nat)) (t : XTgt),
      (src.map Prod.fst).Nodup →
      (xattrCopyTo src t).allowed = t.allowed ∧
      ∀ n, lookupS (xattrCopyTo src t).attrs n =
        if n ∈ src.map Prod.fst ∧ t.allowed n = true then lookupS src n
        else lookupS t.attrs n := by
  have main : ∀ (src : List (String × List Nat)) (names : List String) (t : XTgt),
      names.Nodup → (∀ n ∈ names, (lookupS src n).isSome = true) →
      ((names.foldl
          (fun acc n =>
            match lookupS src n with
            | some v =>
                match xattrSet acc n v with
                | some acc' => acc'
                | none => acc
            | none => acc)
          t).allowed = t.allowed ∧
       ∀ n, lookupS (names.foldl
          (fun acc n =>
            match lookupS src n with
            | some v =>
                match xattrSet acc n v with
                | some acc' => acc'
                | none => acc
            | none => acc)
          t).attrs n =
        if n ∈ names ∧ t.allowed n = true then lookupS src n
        else lookupS t.attrs n) := by
    intro src names
    induction names with
    | nil =>
        intro t _ _
        refine ⟨rfl, ?_⟩
        intro n
        simp
    | cons n₀ rest ih =>
        intro t hnd hsome
        simp only [List.nodup_cons] at hnd
        obtain ⟨v₀, hv₀⟩ : ∃ v, lookupS src n₀ = some v := by
          cases hl : lookupS src n₀ with
          | none =>
              have := hsome n₀ (by simp)
              rw [hl] at this
              simp at this
          | some v => exact ⟨v, rfl⟩
        have hstep : (n₀ :: rest).foldl
            (fun acc n =>
              match lookupS src n with
              | some v =>
                  match xattrSet acc n v with
                  | some acc' => acc'
                  | none => acc
              | none => acc) t =
          rest.foldl
            (fun acc n =>
              match lookupS src n with
              | some v =>
                  match xattrSet acc n v with
                  | some acc' => acc'
                  | none => acc
              | none => acc)
            (if t.allowed n₀ = true then { t with attrs := setName t.attrs n₀ v₀ } else t) := by
          rw [List.foldl_cons]
          congr 1
          simp only [hv₀]
          unfold xattrSet
          by_cases ha : t.allowed n₀ = true
          · rw [if_pos ha, if_pos ha]
          · rw [if_neg ha, if_neg ha]
        rw [hstep]
        set t' := if t.allowed n₀ = true then { t with attrs := setName t.attrs n₀ v₀ } else t with ht'
        have hallow : t'.allowed = t.allowed := by
          rw [ht']
          by_cases ha : t.allowed n₀ = true
          · rw [if_pos ha]
          · rw [if_neg ha]
        have ihr := ih t' hnd.2 (fun n hn => hsome n (by simp [hn]))
        refine ⟨by rw [ihr.1, hallow], ?_⟩
        intro n
        rw [ihr.2 n, hallow]
        by_cases hn : n = n₀
        · subst hn
          rw [if_neg (fun hc : n ∈ rest ∧ _ => hnd.1 hc.1)]
          by_cases ha : t.allowed n = true
          · rw [if_pos ⟨by simp, ha⟩, ht', if_pos ha]
            show lookupS (setName t.attrs n v₀) n = lookupS src n
            rw [lookupS_setName, if_pos rfl, hv₀]
          · rw [if_neg (fun hc : n ∈ n :: rest ∧ _ => ha hc.2), ht', if_neg ha]
        · have hattrs : lookupS t'.attrs n = lookupS t.attrs n := by
            rw [ht']
            by_cases ha : t.allowed n₀ = true
            · rw [if_pos ha]
              show lookupS (setName t.attrs n₀ v₀) n = lookupS t.attrs n
              rw [lookupS_setName, if_neg hn]
            · rw [if_neg ha]
          rw [hattrs]
          by_cases hc : n ∈ rest ∧ t.allowed n = true
          · rw [if_pos hc, if_pos ⟨by simp [hc.1], hc.2⟩]
          · rw [if_neg hc, if_neg (by
              rintro ⟨hmem, hal⟩
              rcases List.mem_cons.mp hmem with h | h
              · exact hn h
              · exact hc ⟨h, hal⟩)]
  intro src t hnd
  exact main src (src.map Prod.fst) t hnd (fun n hn => lookupS_isSome_of_mem src n hn)

/-- Witness for C2 (amended): source `{user.a, bad, user.c}` onto a target
that rejects the name `bad` and already has `user.a` and `old`: `user.c`
(after the failing `bad`) is still copied, `bad` is skipped, and the
pre-existing `old` survives. -/
theorem xattrCopyTo_spec_witness :
    (([("user.a", [1]), ("bad", [2]), ("user.c", [3])].map
        (Prod.fst (β := List Nat))).Nodup) ∧
    lookupS (xattrCopyTo [("user.a", [1]), ("bad", [2]), ("user.c", [3])]
        ⟨[("user.a", [9]), ("old", [7])], fun s => s != "bad"⟩).attrs "user.c" =
      some [3] ∧
    lookupS (xattrCopyTo [("user.a", [1]), ("bad", [2]), ("user.c", [3])]
        ⟨[("user.a", [9]), ("old", [7])], fun s => s != "bad"⟩).attrs "bad" = none ∧
    lookupS (xattrCopyTo [("user.a", [1]), ("bad", [2]), ("user.c", [3])]
        ⟨[("user.a", [9]), ("old", [7])], fun s => s != "bad"⟩).attrs "old" =
      some [7] := by
  have h := xattrCopyTo_spec [("user.a", [1]), ("bad", [2]), ("user.c", [3])]
    ⟨[("user.a", [9]), ("old", [7])], fun s => s != "bad"⟩ (by decide)
  refine ⟨by decide, ?_, ?_, ?_⟩
  · rw [(h.2) "user.c"]
    rfl
  · rw [(h.2) "bad"]
    rfl
  · rw [(h.2) "old"]
    rfl
